import Mathlib

/-!
# Verification of the `markov` chain-building library

A shallow embedding of the Go package `chain` (files `markov.go`,
`sources.go`, `scanners.go`, `filter.go`).  Go maps (`map[string]int`,
`map[string]*singleTokenLink`) are embedded as association lists
`List (String × α)` with Go's read/update semantics (`mapGet` returns the
entry for a key, `mapSet` updates in place or inserts); Go `int` counts,
which the program only ever increments from zero, are embedded as `Nat`;
Go `float64` probabilities are embedded as exact rationals `ℚ`.
Go's randomized map iteration order is made explicit: functions that
iterate a map walk the association list in its stored order, and claims
about the distribution of `GetNextToken` quantify over all permutations
of the stored order.
-/

namespace Markov

/-- A Go `map[string]α`, embedded as an association list.  Entry order
stands for one possible iteration order. -/
abbrev GoMap (α : Type) := List (String × α)

/-- Go map read: the value stored at `k`, if present. -/
def mapGet {α : Type} (m : GoMap α) (k : String) : Option α :=
  match m with
  | [] => none
  | (k', v) :: rest => if k' = k then some v else mapGet rest k

/-- Go map write: replace the value at `k` in place, or insert a new entry. -/
def mapSet {α : Type} (m : GoMap α) (k : String) (v : α) : GoMap α :=
  match m with
  | [] => [(k, v)]
  | (k', v') :: rest =>
      if k' = k then (k', v) :: rest else (k', v') :: mapSet rest k v

/-- `singleTokenLink` from `markov.go`: one link of the chain.
`token` is the (single) key token, `nextTokenOccurrences` the Go map from
next-token to its occurrence count, `total` the running sum of counts. -/
structure SingleTokenLink where
  token : String
  nextTokenOccurrences : GoMap Nat
  total : Nat
deriving Repr, DecidableEq

/-- `singleKeyChain` from `markov.go`: the Go map from key token to link. -/
structure SingleKeyChain where
  links : GoMap SingleTokenLink
deriving Repr, DecidableEq

/-- The closure `appendToChain` inside `buildChain`: record one observed
transition `prev -> next`, creating the link for `prev` on first use. -/
def appendToChain (links : GoMap SingleTokenLink) (prev next : String) :
    GoMap SingleTokenLink :=
  let link : SingleTokenLink :=
    match mapGet links prev with
    | none => { token := prev, nextTokenOccurrences := [], total := 0 }
    | some extantLink => extantLink
  let link :=
    { link with
      nextTokenOccurrences :=
        mapSet link.nextTokenOccurrences next
          ((mapGet link.nextTokenOccurrences next).getD 0 + 1),
      total := link.total + 1 }
  mapSet links prev link

/-- The loop body of `buildChain`: consume the token stream, threading the
previous token (`lastVal`, initially `""`). -/
def buildChainLoop (links : GoMap SingleTokenLink) (lastVal : String) :
    List String → GoMap SingleTokenLink
  | [] => appendToChain links lastVal ""
  | val :: rest => buildChainLoop (appendToChain links lastVal val) val rest

/-- `buildChain` from `markov.go`: accumulate one token stream (the channel's
contents, in order) into a fresh `singleKeyChain`. -/
def buildChain (tokens : List String) : SingleKeyChain :=
  { links := buildChainLoop [] "" tokens }

/-- The inner loop of `mergeChains`: fold one link of a partial chain into
the merged map, keyed by the link's `Token[0]`. -/
def mergeLinkInto (mergedLinks : GoMap SingleTokenLink)
    (link : SingleTokenLink) : GoMap SingleTokenLink :=
  let key := link.token
  let mergedLink : SingleTokenLink :=
    match mapGet mergedLinks key with
    | none => { token := key, nextTokenOccurrences := [], total := 0 }
    | some extantLink => extantLink
  let mergedLink :=
    { mergedLink with
      total := mergedLink.total + link.total,
      nextTokenOccurrences :=
        link.nextTokenOccurrences.foldl
          (fun (acc : GoMap Nat) (kv : String × Nat) =>
            mapSet acc kv.1 ((mapGet acc kv.1).getD 0 + kv.2))
          mergedLink.nextTokenOccurrences }
  mapSet mergedLinks key mergedLink

/-- `mergeChains` from `markov.go`: fold every link of every partial chain
into one merged chain. -/
def mergeChains (chains : List SingleKeyChain) : SingleKeyChain :=
  { links :=
      chains.foldl
        (fun acc c => c.links.foldl (fun m p => mergeLinkInto m p.2) acc) [] }

/-- The loop of `singleTokenLink.GetNextToken`: walk the occurrence entries
in the given iteration order, accumulating `sum += v`, returning the first
key whose running sum reaches the drawn goal (`sum >= goalSum`); `none`
models falling off the end of the table (the "should be impossible" branch). -/
def getNextTokenWalk : List (String × Nat) → Nat → Nat → Option String
  | [], _, _ => none
  | (k, v) :: rest, sum, goalSum =>
      if goalSum ≤ sum + v then some k else getNextTokenWalk rest (sum + v) goalSum

/-- `singleTokenLink.GetNextToken`, given the value `goalSum` drawn by
`rand.Intn(l.Total)` (uniform on `[0, total)`); the fallback branch
returns `""`. -/
def getNextToken (l : SingleTokenLink) (goalSum : Nat) : String :=
  (getNextTokenWalk l.nextTokenOccurrences 0 goalSum).getD ""

/-- `singleTokenLink.GetProbabilityOfToken`; `float64` division is embedded
as exact division in `ℚ`. -/
def getProbabilityOfToken (l : SingleTokenLink) (nextToken : String) :
    ℚ × Bool :=
  match mapGet l.nextTokenOccurrences nextToken with
  | none => (0, false)
  | some occurrences => ((occurrences : ℚ) / (l.total : ℚ), true)

/-- `singleKeyChain.CalculateNextToken`, given the drawn goal value. -/
def calculateNextToken (c : SingleKeyChain) (token : String) (goalSum : Nat) :
    String × Bool :=
  match mapGet c.links token with
  | none => ("", false)
  | some link => (getNextToken link goalSum, true)

/-- `singleKeyChain.RetrieveMarkovLink`. -/
def retrieveMarkovLink (c : SingleKeyChain) (token : String) :
    Option SingleTokenLink × Bool :=
  (mapGet c.links token, (mapGet c.links token).isSome)

/-- A `TokenSource` as observed by `BuildChainFromSources`' reader goroutine:
the tokens it yields before stopping, and `none` for a clean `io.EOF` or
`some e` for any other error. -/
structure Source where
  tokens : List String
  err : Option String
deriving Repr, DecidableEq

instance {ε α : Type} [DecidableEq ε] [DecidableEq α] :
    DecidableEq (Except ε α) := fun x y =>
  match x, y with
  | .ok a, .ok b =>
      if h : a = b then isTrue (by rw [h])
      else isFalse (fun hc => by cases hc; exact h rfl)
  | .error e, .error f =>
      if h : e = f then isTrue (by rw [h])
      else isFalse (fun hc => by cases hc; exact h rfl)
  | .ok _, .error _ => isFalse (fun hc => by cases hc)
  | .error _, .ok _ => isFalse (fun hc => by cases hc)

/-- `BuildChainFromSources` from `sources.go`.  If every source reaches
`io.EOF`, every token channel closes, `BuildSingleLinkChain` merges the
per-stream chains and the `select` returns it with a nil error; if any
source fails, its channel never closes, the chain is never produced, and
the `select` returns the error (with several failing sources the winner is
a scheduling race; this embedding determinizes it to the first in source
order). -/
def buildChainFromSources (sources : List Source) :
    Except String SingleKeyChain :=
  match sources.findSome? (·.err) with
  | some e => .error e
  | none => .ok (mergeChains (sources.map (fun s => buildChain s.tokens)))

/-! ## Observations of a chain -/

/-- Sum of the occurrence counts stored in a link's occurrence map. -/
def sumCounts (occ : GoMap Nat) : Nat := (occ.map Prod.snd).sum

/-- Occurrence count recorded for the transition `token -> next` (0 if the
key or the transition is absent). -/
def chainOcc (c : SingleKeyChain) (token next : String) : Nat :=
  match mapGet c.links token with
  | none => 0
  | some l => (mapGet l.nextTokenOccurrences next).getD 0

/-- Total recorded for `token`'s link (0 if the key is absent). -/
def chainTotal (c : SingleKeyChain) (token : String) : Nat :=
  match mapGet c.links token with
  | none => 0
  | some l => l.total

/-- Whether the chain has a link for `token`. -/
def chainHasKey (c : SingleKeyChain) (token : String) : Bool :=
  (mapGet c.links token).isSome

/-! ## Association-list map lemmas -/

theorem mapGet_mapSet_self {α : Type} (m : GoMap α) (k : String) (v : α) :
    mapGet (mapSet m k v) k = some v := by
  induction m with
  | nil => simp [mapGet, mapSet]
  | cons p rest ih =>
      obtain ⟨k', v'⟩ := p
      by_cases h : k' = k <;> simp [mapGet, mapSet, h, ih]

theorem mapGet_mapSet_ne {α : Type} (m : GoMap α) (k : String) (v : α)
    (k' : String) (h : k ≠ k') : mapGet (mapSet m k v) k' = mapGet m k' := by
  induction m with
  | nil => simp [mapGet, mapSet, h]
  | cons p rest ih =>
      obtain ⟨k₀, v₀⟩ := p
      by_cases h₀ : k₀ = k
      · subst h₀; simp [mapGet, mapSet, h]
      · simp [mapGet, mapSet, h₀, ih]

theorem mapGet_eq_none_iff {α : Type} (m : GoMap α) (k : String) :
    mapGet m k = none ↔ k ∉ m.map Prod.fst := by
  induction m with
  | nil => simp [mapGet]
  | cons p rest ih =>
      obtain ⟨k', v'⟩ := p
      by_cases h : k' = k
      · subst h; simp [mapGet]
      · have hne : ¬ k = k' := fun hk => h hk.symm
        simp [mapGet, h, ih, hne]

theorem keys_mapSet {α : Type} (m : GoMap α) (k : String) (v : α) :
    (mapSet m k v).map Prod.fst =
      if k ∈ m.map Prod.fst then m.map Prod.fst else m.map Prod.fst ++ [k] := by
  induction m with
  | nil => simp [mapSet]
  | cons p rest ih =>
      obtain ⟨k', v'⟩ := p
      by_cases h : k' = k
      · subst h; simp [mapSet]
      · have hne : ¬ k = k' := fun hk => h hk.symm
        by_cases hm : k ∈ rest.map Prod.fst <;>
          simp [mapSet, h, ih, hne, hm]

theorem nodup_keys_mapSet {α : Type} (m : GoMap α) (k : String) (v : α)
    (h : (m.map Prod.fst).Nodup) : ((mapSet m k v).map Prod.fst).Nodup := by
  rw [keys_mapSet]
  split
  · exact h
  · next hk => simp [List.nodup_append, h, hk]

theorem mapGet_mem {α : Type} {m : GoMap α} {k : String} {v : α}
    (h : mapGet m k = some v) : (k, v) ∈ m := by
  induction m with
  | nil => simp [mapGet] at h
  | cons p rest ih =>
      obtain ⟨k', v'⟩ := p
      by_cases hk : k' = k
      · subst hk
        simp [mapGet] at h
        simp [h]
      · simp [mapGet, hk] at h
        exact List.mem_cons_of_mem _ (ih h)

/-- When every stored occurrence count is positive, `GetProbabilityOfToken`
returns `count/total` with `present = true` exactly on the recorded
transitions, and `(0, false)` otherwise. -/
theorem getProbabilityOfToken_spec (l : SingleTokenLink)
    (hpos : ∀ p ∈ l.nextTokenOccurrences, 0 < p.2) (nxt : String) :
    getProbabilityOfToken l nxt =
      if 0 < (mapGet l.nextTokenOccurrences nxt).getD 0 then
        (((mapGet l.nextTokenOccurrences nxt).getD 0 : ℚ) / (l.total : ℚ), true)
      else (0, false) := by
  cases hm : mapGet l.nextTokenOccurrences nxt with
  | none => simp [getProbabilityOfToken, hm]
  | some c =>
      have hc : 0 < c := hpos _ (mapGet_mem hm)
      simp [getProbabilityOfToken, hm, hc]

/-- C7: building from zero streams returns a Chain with no Links and no
error, and every query on that Chain (`CalculateNextToken`,
`RetrieveMarkovLink`) reports the key as not present. -/
theorem claim_C7_zero_streams :
    buildChainFromSources [] = Except.ok { links := [] } ∧
    (∀ tok goalSum,
      calculateNextToken { links := [] } tok goalSum = ("", false)) ∧
    (∀ tok, retrieveMarkovLink { links := [] } tok = (none, false)) := by
  refine ⟨rfl, ?_, ?_⟩
  · intro tok goalSum
    simp [calculateNextToken, mapGet]
  · intro tok
    simp [retrieveMarkovLink, mapGet]

/-- C5: building from the single stream `[a, b, a, b]` (with `a = "a"`,
`b = "b"`) yields exactly the links `"" -> {a:1}`, `a -> {b:2}`,
`b -> {a:1, "":1}`; on that chain, a probability lookup on any stored link
returns `count/total` with `present = true` for recorded transitions and
`(0, false)` for absent ones. -/
theorem claim_C5_round_trip :
    (buildChain ["a", "b", "a", "b"]).links =
      [("", { token := "", nextTokenOccurrences := [("a", 1)], total := 1 }),
       ("a", { token := "a", nextTokenOccurrences := [("b", 2)], total := 2 }),
       ("b", { token := "b",
               nextTokenOccurrences := [("a", 1), ("", 1)], total := 2 })] ∧
    (∀ tok nxt l,
      mapGet (buildChain ["a", "b", "a", "b"]).links tok = some l →
      getProbabilityOfToken l nxt =
        if 0 < chainOcc (buildChain ["a", "b", "a", "b"]) tok nxt then
          ((chainOcc (buildChain ["a", "b", "a", "b"]) tok nxt : ℚ) /
             (chainTotal (buildChain ["a", "b", "a", "b"]) tok : ℚ), true)
        else (0, false)) := by
  refine ⟨by decide, ?_⟩
  intro tok nxt l h
  have hocc : chainOcc (buildChain ["a", "b", "a", "b"]) tok nxt =
      (mapGet l.nextTokenOccurrences nxt).getD 0 := by
    simp [chainOcc, h]
  have htot : chainTotal (buildChain ["a", "b", "a", "b"]) tok = l.total := by
    simp [chainTotal, h]
  rw [hocc, htot]
  apply getProbabilityOfToken_spec
  have hmem := mapGet_mem h
  have hl : l = { token := "", nextTokenOccurrences := [("a", 1)], total := 1 } ∨
      l = { token := "a", nextTokenOccurrences := [("b", 2)], total := 2 } ∨
      l = { token := "b",
            nextTokenOccurrences := [("a", 1), ("", 1)], total := 2 } := by
    have : (tok, l) ∈ (buildChain ["a", "b", "a", "b"]).links := hmem
    rw [show (buildChain ["a", "b", "a", "b"]).links =
      [("", { token := "", nextTokenOccurrences := [("a", 1)], total := 1 }),
       ("a", { token := "a", nextTokenOccurrences := [("b", 2)], total := 2 }),
       ("b", { token := "b",
               nextTokenOccurrences := [("a", 1), ("", 1)], total := 2 })]
      from by decide] at this
    simp at this
    rcases this with ⟨_, h⟩ | ⟨_, h⟩ | ⟨_, h⟩ <;> simp [h]
  rcases hl with h | h | h <;> subst h <;> decide

/-- Witness for C5 at the concrete lookup `b -> a`. -/
theorem claim_C5_round_trip_witness :
    getProbabilityOfToken
        { token := "b", nextTokenOccurrences := [("a", 1), ("", 1)], total := 2 }
        "a" =
      if 0 < chainOcc (buildChain ["a", "b", "a", "b"]) "b" "a" then
        ((chainOcc (buildChain ["a", "b", "a", "b"]) "b" "a" : ℚ) /
           (chainTotal (buildChain ["a", "b", "a", "b"]) "b" : ℚ), true)
      else (0, false) :=
  claim_C5_round_trip.2 "b" "a" _ (by decide)

/-! ## The running-sum walk of `GetNextToken` -/

theorem getNextTokenWalk_mem {occ : List (String × Nat)} {s goalSum : Nat}
    {k : String} (h : getNextTokenWalk occ s goalSum = some k) :
    k ∈ occ.map Prod.fst := by
  induction occ generalizing s with
  | nil => simp [getNextTokenWalk] at h
  | cons p rest ih =>
      obtain ⟨k', v⟩ := p
      by_cases hle : goalSum ≤ s + v
      · simp [getNextTokenWalk, hle] at h
        simp [h]
      · simp [getNextTokenWalk, hle] at h
        exact List.mem_cons_of_mem _ (ih h)

theorem getNextTokenWalk_isSome (occ : List (String × Nat)) (s goalSum : Nat)
    (hcov : goalSum ≤ s + sumCounts occ) (hne : occ ≠ []) :
    (getNextTokenWalk occ s goalSum).isSome := by
  induction occ generalizing s with
  | nil => exact absurd rfl hne
  | cons p rest ih =>
      obtain ⟨k, v⟩ := p
      by_cases hle : goalSum ≤ s + v
      · simp [getNextTokenWalk, hle]
      · have hrest : rest ≠ [] := by
          rintro rfl
          exact hle (by simpa [sumCounts] using hcov)
        have : goalSum ≤ s + v + sumCounts rest := by
          simp [sumCounts] at hcov ⊢
          omega
        simpa [getNextTokenWalk, hle] using ih (s + v) this hrest

/-- C2: on a Link whose `total` is positive and equals the sum of its
occurrence counts, for every drawn goal in `[0, total)` the running-sum walk
of `GetNextToken` returns a key of the occurrence map before reaching the
end of the table; the post-loop fallback (`return ""`) is unreachable. -/
theorem claim_C2_fallback_unreachable (l : SingleTokenLink)
    (hpos : 0 < l.total)
    (hsum : l.total = sumCounts l.nextTokenOccurrences)
    (goalSum : Nat) (hg : goalSum < l.total) :
    ∃ k, getNextTokenWalk l.nextTokenOccurrences 0 goalSum = some k ∧
      k ∈ l.nextTokenOccurrences.map Prod.fst ∧
      getNextToken l goalSum = k := by
  have hne : l.nextTokenOccurrences ≠ [] := by
    intro he
    rw [hsum, he] at hpos
    simp [sumCounts] at hpos
  have hcov : goalSum ≤ 0 + sumCounts l.nextTokenOccurrences := by
    omega
  have hsome := getNextTokenWalk_isSome l.nextTokenOccurrences 0 goalSum hcov hne
  obtain ⟨k, hk⟩ := Option.isSome_iff_exists.mp hsome
  exact ⟨k, hk, getNextTokenWalk_mem hk, by simp [getNextToken, hk]⟩

/-- Witness for C2 on the Link `{x:1, y:3}` with goal 2. -/
theorem claim_C2_fallback_unreachable_witness :
    ∃ k,
      getNextTokenWalk [("x", 1), ("y", 3)] 0 2 = some k ∧
      k ∈ [("x", 1), ("y", 3)].map Prod.fst ∧
      getNextToken
        { token := "t", nextTokenOccurrences := [("x", 1), ("y", 3)],
          total := 4 } 2 = k :=
  claim_C2_fallback_unreachable
    { token := "t", nextTokenOccurrences := [("x", 1), ("y", 3)], total := 4 }
    (by decide) (by decide) 2 (by decide)

/-! ## The count/total invariant -/

/-- The documented Link invariant: `total` equals the sum of the occurrence
counts, and every stored count is positive. -/
def linkInv (l : SingleTokenLink) : Prop :=
  l.total = sumCounts l.nextTokenOccurrences ∧
    ∀ q ∈ l.nextTokenOccurrences, 0 < q.2

theorem mem_mapSet {α : Type} {m : GoMap α} {k : String} {v : α}
    {p : String × α} (h : p ∈ mapSet m k v) : p = (k, v) ∨ p ∈ m := by
  induction m with
  | nil => simpa [mapSet] using h
  | cons q rest ih =>
      obtain ⟨k', v'⟩ := q
      by_cases hk : k' = k
      · subst hk
        simp [mapSet] at h
        rcases h with h | h
        · exact Or.inl (by simp [h])
        · exact Or.inr (by simp [h])
      · simp [mapSet, hk] at h
        rcases h with h | h
        · exact Or.inr (by simp [h])
        · rcases ih h with h' | h'
          · exact Or.inl h'
          · exact Or.inr (by simp [h'])

theorem sumCounts_bump (m : GoMap Nat) (k : String) (v : Nat) :
    sumCounts (mapSet m k ((mapGet m k).getD 0 + v)) = sumCounts m + v := by
  induction m with
  | nil => simp [sumCounts, mapSet, mapGet]
  | cons p rest ih =>
      obtain ⟨k', v'⟩ := p
      by_cases hk : k' = k
      · subst hk
        simp [sumCounts, mapSet, mapGet]
        omega
      · have hne : ¬ k = k' := fun h => hk h.symm
        simp [sumCounts, mapSet, mapGet, hk, hne] at ih ⊢
        omega

theorem pos_bump (m : GoMap Nat) (k : String) (v : Nat)
    (hm : ∀ p ∈ m, 0 < p.2) (hv : 0 < v) :
    ∀ p ∈ mapSet m k ((mapGet m k).getD 0 + v), 0 < p.2 := by
  intro p hp
  rcases mem_mapSet hp with h | h
  · subst h; simp; omega
  · exact hm p h

/-- One `acc[k] += v` step of the merge's occurrence loop. -/
theorem sumCounts_addAll (base : GoMap Nat) (entries : List (String × Nat)) :
    sumCounts
      (entries.foldl
        (fun (acc : GoMap Nat) (kv : String × Nat) =>
          mapSet acc kv.1 ((mapGet acc kv.1).getD 0 + kv.2)) base) =
      sumCounts base + sumCounts entries := by
  induction entries generalizing base with
  | nil => simp [sumCounts]
  | cons kv rest ih =>
      obtain ⟨k, v⟩ := kv
      simp only [List.foldl_cons]
      rw [ih, sumCounts_bump]
      simp [sumCounts]
      omega

theorem pos_addAll (base : GoMap Nat) (entries : List (String × Nat))
    (hb : ∀ p ∈ base, 0 < p.2) (he : ∀ p ∈ entries, 0 < p.2) :
    ∀ p ∈ entries.foldl
        (fun (acc : GoMap Nat) (kv : String × Nat) =>
          mapSet acc kv.1 ((mapGet acc kv.1).getD 0 + kv.2)) base,
      0 < p.2 := by
  induction entries generalizing base with
  | nil => exact hb
  | cons kv rest ih =>
      obtain ⟨k, v⟩ := kv
      simp only [List.foldl_cons]
      refine ih _ (pos_bump base k v hb (he (k, v) (by simp))) ?_
      intro p hp
      exact he p (List.mem_cons_of_mem _ hp)

theorem appendToChain_inv (links : GoMap SingleTokenLink)
    (prev next : String) (h : ∀ p ∈ links, linkInv p.2) :
    ∀ p ∈ appendToChain links prev next, linkInv p.2 := by
  intro p hp
  unfold appendToChain at hp
  rcases mem_mapSet hp with hnew | hold
  · subst hnew
    cases hm : mapGet links prev with
    | none =>
        simp only [hm]
        constructor
        · simpa using (sumCounts_bump [] next 1).symm
        · exact pos_bump [] next 1 (by simp) (by decide)
    | some l =>
        have hl : linkInv l := h (prev, l) (mapGet_mem hm)
        simp only [hm]
        constructor
        · simp only
          rw [sumCounts_bump]
          have := hl.1
          omega
        · exact pos_bump _ next 1 hl.2 (by decide)
  · exact h p hold

theorem buildChainLoop_inv (tokens : List String)
    (links : GoMap SingleTokenLink) (lastVal : String)
    (h : ∀ p ∈ links, linkInv p.2) :
    ∀ p ∈ buildChainLoop links lastVal tokens, linkInv p.2 := by
  induction tokens generalizing links lastVal with
  | nil => exact appendToChain_inv links lastVal "" h
  | cons t rest ih =>
      exact ih _ t (appendToChain_inv links lastVal t h)

theorem buildChain_inv (tokens : List String) :
    ∀ p ∈ (buildChain tokens).links, linkInv p.2 :=
  buildChainLoop_inv tokens [] "" (by simp)

theorem mergeLinkInto_inv (m : GoMap SingleTokenLink)
    (link : SingleTokenLink) (hm : ∀ p ∈ m, linkInv p.2)
    (hl : linkInv link) : ∀ p ∈ mergeLinkInto m link, linkInv p.2 := by
  intro p hp
  unfold mergeLinkInto at hp
  rcases mem_mapSet hp with hnew | hold
  · subst hnew
    cases hb : mapGet m link.token with
    | none =>
        simp only [hb]
        constructor
        · simp only
          rw [sumCounts_addAll]
          have h1 := hl.1
          simp [sumCounts] at h1 ⊢
          omega
        · exact pos_addAll _ _ (by simp) hl.2
    | some base =>
        have hbinv : linkInv base := hm (link.token, base) (mapGet_mem hb)
        simp only [hb]
        constructor
        · simp only
          rw [sumCounts_addAll]
          have h1 := hbinv.1
          have h2 := hl.1
          omega
        · exact pos_addAll _ _ hbinv.2 hl.2
  · exact hm p hold

theorem foldl_mergeLink_inv (ls : List (String × SingleTokenLink))
    (m : GoMap SingleTokenLink) (hm : ∀ p ∈ m, linkInv p.2)
    (hls : ∀ p ∈ ls, linkInv p.2) :
    ∀ p ∈ ls.foldl (fun m p => mergeLinkInto m p.2) m, linkInv p.2 := by
  induction ls generalizing m with
  | nil => exact hm
  | cons q rest ih =>
      simp only [List.foldl_cons]
      refine ih _ (mergeLinkInto_inv m q.2 hm (hls q (by simp))) ?_
      intro p hp
      exact hls p (List.mem_cons_of_mem _ hp)

theorem mergeChains_inv (chains : List SingleKeyChain)
    (h : ∀ c ∈ chains, ∀ p ∈ c.links, linkInv p.2) :
    ∀ p ∈ (mergeChains chains).links, linkInv p.2 := by
  unfold mergeChains
  simp only
  have main :
      ∀ (cs : List SingleKeyChain) (m : GoMap SingleTokenLink),
        (∀ p ∈ m, linkInv p.2) → (∀ c ∈ cs, ∀ p ∈ c.links, linkInv p.2) →
        ∀ p ∈ cs.foldl
            (fun acc c => c.links.foldl (fun m p => mergeLinkInto m p.2) acc)
            m, linkInv p.2 := by
    intro cs
    induction cs with
    | nil => intro m hm _; exact hm
    | cons c rest ih =>
        intro m hm hcs
        simp only [List.foldl_cons]
        refine ih _ (foldl_mergeLink_inv c.links m hm (hcs c (by simp))) ?_
        intro c' hc'
        exact hcs c' (List.mem_cons_of_mem _ hc')
  exact main chains [] (by simp) h

/-- C6: every link produced by per-stream accumulation (`buildChain`) and
every link produced by merging per-stream chains (`mergeChains`) has
`total` equal to the sum of its occurrence counts, with every occurrence
count a positive integer. -/
theorem claim_C6_link_invariant :
    (∀ tokens : List String, ∀ p ∈ (buildChain tokens).links, linkInv p.2) ∧
    (∀ streams : List (List String),
      ∀ p ∈ (mergeChains (streams.map buildChain)).links, linkInv p.2) := by
  constructor
  · exact buildChain_inv
  · intro streams
    refine mergeChains_inv _ ?_
    intro c hc
    simp only [List.mem_map] at hc
    obtain ⟨ts, _, rfl⟩ := hc
    exact buildChain_inv ts

/-- Witness for C6 on the stream `[a, b]` and the merge of two streams. -/
theorem claim_C6_link_invariant_witness :
    linkInv { token := "a", nextTokenOccurrences := [("b", 1)], total := 1 } ∧
    linkInv { token := "", nextTokenOccurrences := [("a", 2)], total := 2 } :=
  ⟨claim_C6_link_invariant.1 ["a", "b"]
      ("a", { token := "a", nextTokenOccurrences := [("b", 1)], total := 1 })
      (by decide),
   claim_C6_link_invariant.2 [["a"], ["a"]]
      ("", { token := "", nextTokenOccurrences := [("a", 2)], total := 2 })
      (by decide)⟩

/-! ## Well-formedness of the link maps -/

/-- Structural facts Go maps provide for free and the program maintains:
link-map keys are unique, each link's `Token[0]` equals its map key, and
each link's occurrence-map keys are unique. -/
def wfLinks (m : GoMap SingleTokenLink) : Prop :=
  (m.map Prod.fst).Nodup ∧
    ∀ p ∈ m, p.2.token = p.1 ∧
      (p.2.nextTokenOccurrences.map Prod.fst).Nodup

theorem nodup_keys_addAll (base : GoMap Nat) (entries : List (String × Nat))
    (h : (base.map Prod.fst).Nodup) :
    ((entries.foldl
        (fun (acc : GoMap Nat) (kv : String × Nat) =>
          mapSet acc kv.1 ((mapGet acc kv.1).getD 0 + kv.2)) base).map
      Prod.fst).Nodup := by
  induction entries generalizing base with
  | nil => exact h
  | cons kv rest ih =>
      simp only [List.foldl_cons]
      exact ih _ (nodup_keys_mapSet _ _ _ h)

theorem appendToChain_wf (links : GoMap SingleTokenLink)
    (prev next : String) (h : wfLinks links) :
    wfLinks (appendToChain links prev next) := by
  obtain ⟨hkeys, hent⟩ := h
  constructor
  · exact nodup_keys_mapSet _ _ _ hkeys
  · intro p hp
    unfold appendToChain at hp
    rcases mem_mapSet hp with hnew | hold
    · subst hnew
      cases hm : mapGet links prev with
      | none => simp only [hm]; exact ⟨trivial, nodup_keys_mapSet [] _ _ (by simp)⟩
      | some l =>
          have hl := hent (prev, l) (mapGet_mem hm)
          simp only [hm]
          exact ⟨hl.1, nodup_keys_mapSet _ _ _ hl.2⟩
    · exact hent p hold

theorem buildChainLoop_wf (tokens : List String)
    (links : GoMap SingleTokenLink) (lastVal : String)
    (h : wfLinks links) : wfLinks (buildChainLoop links lastVal tokens) := by
  induction tokens generalizing links lastVal with
  | nil => exact appendToChain_wf links lastVal "" h
  | cons t rest ih => exact ih _ t (appendToChain_wf links lastVal t h)

theorem buildChain_wf (tokens : List String) :
    wfLinks (buildChain tokens).links :=
  buildChainLoop_wf tokens [] "" ⟨by simp, by simp⟩

theorem mergeLinkInto_wf (m : GoMap SingleTokenLink)
    (link : SingleTokenLink) (hm : wfLinks m) :
    wfLinks (mergeLinkInto m link) := by
  obtain ⟨hkeys, hent⟩ := hm
  constructor
  · exact nodup_keys_mapSet _ _ _ hkeys
  · intro p hp
    unfold mergeLinkInto at hp
    rcases mem_mapSet hp with hnew | hold
    · subst hnew
      cases hb : mapGet m link.token with
      | none =>
          simp only [hb]
          exact ⟨trivial, nodup_keys_addAll [] _ (by simp)⟩
      | some base =>
          have hbwf := hent (link.token, base) (mapGet_mem hb)
          simp only [hb]
          exact ⟨hbwf.1, nodup_keys_addAll _ _ hbwf.2⟩
    · exact hent p hold

theorem foldl_mergeLink_wf (ls : List (String × SingleTokenLink))
    (m : GoMap SingleTokenLink) (hm : wfLinks m) :
    wfLinks (ls.foldl (fun m p => mergeLinkInto m p.2) m) := by
  induction ls generalizing m with
  | nil => exact hm
  | cons q rest ih =>
      simp only [List.foldl_cons]
      exact ih _ (mergeLinkInto_wf m q.2 hm)

theorem mergeChains_wf (chains : List SingleKeyChain) :
    wfLinks (mergeChains chains).links := by
  unfold mergeChains
  simp only
  have main : ∀ (cs : List SingleKeyChain) (m : GoMap SingleTokenLink),
      wfLinks m →
      wfLinks (cs.foldl
        (fun acc c => c.links.foldl (fun m p => mergeLinkInto m p.2) acc) m) := by
    intro cs
    induction cs with
    | nil => intro m hm; exact hm
    | cons c rest ih =>
        intro m hm
        simp only [List.foldl_cons]
        exact ih _ (foldl_mergeLink_wf c.links m hm)
  exact main chains [] ⟨by simp, by simp⟩

/-! ## Merge is observationally additive -/

theorem getD_addAll (entries : List (String × Nat)) (base : GoMap Nat)
    (hnd : (entries.map Prod.fst).Nodup) (n : String) :
    (mapGet
        (entries.foldl
          (fun (acc : GoMap Nat) (kv : String × Nat) =>
            mapSet acc kv.1 ((mapGet acc kv.1).getD 0 + kv.2)) base) n).getD 0 =
      (mapGet base n).getD 0 + (mapGet entries n).getD 0 := by
  induction entries generalizing base with
  | nil => simp [mapGet]
  | cons kv rest ih =>
      obtain ⟨k, v⟩ := kv
      simp only [List.map_cons, List.nodup_cons] at hnd
      obtain ⟨hk, hrest⟩ := hnd
      simp only [List.foldl_cons]
      rw [ih _ hrest]
      by_cases hn : n = k
      · subst hn
        rw [mapGet_mapSet_self]
        have : mapGet rest n = none := by
          rw [mapGet_eq_none_iff]
          simpa using hk
        simp [mapGet, this]
      · have hne : k ≠ n := fun h => hn h.symm
        rw [mapGet_mapSet_ne _ _ _ _ hne]
        simp [mapGet, hne]

theorem mergeLinkInto_occ (m : GoMap SingleTokenLink)
    (link : SingleTokenLink)
    (hnd : (link.nextTokenOccurrences.map Prod.fst).Nodup) (t n : String) :
    chainOcc ⟨mergeLinkInto m link⟩ t n =
      chainOcc ⟨m⟩ t n +
        if t = link.token then (mapGet link.nextTokenOccurrences n).getD 0
        else 0 := by
  by_cases ht : t = link.token
  · subst ht
    cases hb : mapGet m link.token with
    | none =>
        simp only [mergeLinkInto, chainOcc, mapGet_mapSet_self, hb]
        rw [getD_addAll _ _ hnd]
        simp [mapGet]
    | some base =>
        simp only [mergeLinkInto, chainOcc, mapGet_mapSet_self, hb]
        rw [getD_addAll _ _ hnd]
        simp
  · have hne : link.token ≠ t := fun h => ht h.symm
    simp only [mergeLinkInto, chainOcc, mapGet_mapSet_ne _ _ _ _ hne, ht,
      if_false]
    cases mapGet m t <;> simp

theorem mergeLinkInto_tot (m : GoMap SingleTokenLink)
    (link : SingleTokenLink) (t : String) :
    chainTotal ⟨mergeLinkInto m link⟩ t =
      chainTotal ⟨m⟩ t + if t = link.token then link.total else 0 := by
  by_cases ht : t = link.token
  · subst ht
    cases hb : mapGet m link.token with
    | none => simp [mergeLinkInto, chainTotal, mapGet_mapSet_self, hb]
    | some base => simp [mergeLinkInto, chainTotal, mapGet_mapSet_self, hb]
  · have hne : link.token ≠ t := fun h => ht h.symm
    simp only [mergeLinkInto, chainTotal, mapGet_mapSet_ne _ _ _ _ hne, ht,
      if_false]
    cases mapGet m t <;> simp

theorem mergeLinkInto_has (m : GoMap SingleTokenLink)
    (link : SingleTokenLink) (t : String) :
    (chainHasKey ⟨mergeLinkInto m link⟩ t = true ↔
      chainHasKey ⟨m⟩ t = true ∨ t = link.token) := by
  by_cases ht : t = link.token
  · subst ht
    simp [mergeLinkInto, chainHasKey, mapGet_mapSet_self]
  · have hne : link.token ≠ t := fun h => ht h.symm
    simp [mergeLinkInto, chainHasKey, mapGet_mapSet_ne _ _ _ _ hne, ht]

theorem foldl_merge_occ (ls : List (String × SingleTokenLink))
    (m : GoMap SingleTokenLink) (hwf : wfLinks ls) (t n : String) :
    chainOcc ⟨ls.foldl (fun m p => mergeLinkInto m p.2) m⟩ t n =
      chainOcc ⟨m⟩ t n + chainOcc ⟨ls⟩ t n := by
  induction ls generalizing m with
  | nil => simp [chainOcc, mapGet]
  | cons q rest ih =>
      obtain ⟨k, link⟩ := q
      obtain ⟨hkeys, hent⟩ := hwf
      simp only [List.map_cons, List.nodup_cons] at hkeys
      obtain ⟨hknot, hkeys'⟩ := hkeys
      have hlink := hent (k, link) (by simp)
      have hwfrest : wfLinks rest :=
        ⟨hkeys', fun p hp => hent p (List.mem_cons_of_mem _ hp)⟩
      simp only [List.foldl_cons]
      rw [ih _ hwfrest, mergeLinkInto_occ _ _ hlink.2, hlink.1]
      have hrhs : chainOcc ⟨(k, link) :: rest⟩ t n =
          (if t = k then (mapGet link.nextTokenOccurrences n).getD 0
           else chainOcc ⟨rest⟩ t n) := by
        by_cases ht : t = k
        · subst ht; simp [chainOcc, mapGet]
        · have : ¬ k = t := fun h => ht h.symm
          simp [chainOcc, mapGet, this, ht]
      rw [hrhs]
      by_cases ht : t = k
      · subst ht
        have : chainOcc ⟨rest⟩ t n = 0 := by
          have : mapGet rest t = none := by
            rw [mapGet_eq_none_iff]; simpa using hknot
          simp [chainOcc, this]
        simp [this]
      · simp [ht]

theorem foldl_merge_tot (ls : List (String × SingleTokenLink))
    (m : GoMap SingleTokenLink) (hwf : wfLinks ls) (t : String) :
    chainTotal ⟨ls.foldl (fun m p => mergeLinkInto m p.2) m⟩ t =
      chainTotal ⟨m⟩ t + chainTotal ⟨ls⟩ t := by
  induction ls generalizing m with
  | nil => simp [chainTotal, mapGet]
  | cons q rest ih =>
      obtain ⟨k, link⟩ := q
      obtain ⟨hkeys, hent⟩ := hwf
      simp only [List.map_cons, List.nodup_cons] at hkeys
      obtain ⟨hknot, hkeys'⟩ := hkeys
      have hlink := hent (k, link) (by simp)
      have hwfrest : wfLinks rest :=
        ⟨hkeys', fun p hp => hent p (List.mem_cons_of_mem _ hp)⟩
      simp only [List.foldl_cons]
      rw [ih _ hwfrest, mergeLinkInto_tot, hlink.1]
      have hrhs : chainTotal ⟨(k, link) :: rest⟩ t =
          (if t = k then link.total else chainTotal ⟨rest⟩ t) := by
        by_cases ht : t = k
        · subst ht; simp [chainTotal, mapGet]
        · have : ¬ k = t := fun h => ht h.symm
          simp [chainTotal, mapGet, this, ht]
      rw [hrhs]
      by_cases ht : t = k
      · subst ht
        have : chainTotal ⟨rest⟩ t = 0 := by
          have : mapGet rest t = none := by
            rw [mapGet_eq_none_iff]; simpa using hknot
          simp [chainTotal, this]
        simp [this]
      · simp [ht]

theorem foldl_merge_has (ls : List (String × SingleTokenLink))
    (m : GoMap SingleTokenLink) (hwf : wfLinks ls) (t : String) :
    (chainHasKey ⟨ls.foldl (fun m p => mergeLinkInto m p.2) m⟩ t = true ↔
      chainHasKey ⟨m⟩ t = true ∨ chainHasKey ⟨ls⟩ t = true) := by
  induction ls generalizing m with
  | nil => simp [chainHasKey, mapGet]
  | cons q rest ih =>
      obtain ⟨k, link⟩ := q
      obtain ⟨hkeys, hent⟩ := hwf
      simp only [List.map_cons, List.nodup_cons] at hkeys
      obtain ⟨hknot, hkeys'⟩ := hkeys
      have hlink := hent (k, link) (by simp)
      have hwfrest : wfLinks rest :=
        ⟨hkeys', fun p hp => hent p (List.mem_cons_of_mem _ hp)⟩
      simp only [List.foldl_cons]
      rw [ih _ hwfrest, mergeLinkInto_has, hlink.1]
      have hrhs : (chainHasKey ⟨(k, link) :: rest⟩ t = true ↔
          (t = k ∨ chainHasKey ⟨rest⟩ t = true)) := by
        by_cases ht : t = k
        · subst ht; simp [chainHasKey, mapGet]
        · have : ¬ k = t := fun h => ht h.symm
          simp [chainHasKey, mapGet, this, ht]
      rw [hrhs]
      tauto

theorem mergeChains_occ (chains : List SingleKeyChain)
    (h : ∀ c ∈ chains, wfLinks c.links) (t n : String) :
    chainOcc (mergeChains chains) t n =
      (chains.map (fun c => chainOcc c t n)).sum := by
  have main : ∀ (cs : List SingleKeyChain) (m : GoMap SingleTokenLink),
      (∀ c ∈ cs, wfLinks c.links) →
      chainOcc ⟨cs.foldl
          (fun acc c => c.links.foldl (fun m p => mergeLinkInto m p.2) acc)
          m⟩ t n =
        chainOcc ⟨m⟩ t n + (cs.map (fun c => chainOcc c t n)).sum := by
    intro cs
    induction cs with
    | nil => intro m _; simp
    | cons c rest ih =>
        intro m hcs
        simp only [List.foldl_cons, List.map_cons, List.sum_cons]
        rw [ih _ (fun c' hc' => hcs c' (List.mem_cons_of_mem _ hc')),
          foldl_merge_occ c.links m (hcs c (by simp))]
        have : chainOcc ⟨c.links⟩ t n = chainOcc c t n := rfl
        omega
  have := main chains [] h
  simpa [chainOcc, mapGet, mergeChains] using this

theorem mergeChains_tot (chains : List SingleKeyChain)
    (h : ∀ c ∈ chains, wfLinks c.links) (t : String) :
    chainTotal (mergeChains chains) t =
      (chains.map (fun c => chainTotal c t)).sum := by
  have main : ∀ (cs : List SingleKeyChain) (m : GoMap SingleTokenLink),
      (∀ c ∈ cs, wfLinks c.links) →
      chainTotal ⟨cs.foldl
          (fun acc c => c.links.foldl (fun m p => mergeLinkInto m p.2) acc)
          m⟩ t =
        chainTotal ⟨m⟩ t + (cs.map (fun c => chainTotal c t)).sum := by
    intro cs
    induction cs with
    | nil => intro m _; simp
    | cons c rest ih =>
        intro m hcs
        simp only [List.foldl_cons, List.map_cons, List.sum_cons]
        rw [ih _ (fun c' hc' => hcs c' (List.mem_cons_of_mem _ hc')),
          foldl_merge_tot c.links m (hcs c (by simp))]
        have : chainTotal ⟨c.links⟩ t = chainTotal c t := rfl
        omega
  have := main chains [] h
  simpa [chainTotal, mapGet, mergeChains] using this

theorem mergeChains_has (chains : List SingleKeyChain)
    (h : ∀ c ∈ chains, wfLinks c.links) (t : String) :
    (chainHasKey (mergeChains chains) t = true ↔
      ∃ c ∈ chains, chainHasKey c t = true) := by
  have main : ∀ (cs : List SingleKeyChain) (m : GoMap SingleTokenLink),
      (∀ c ∈ cs, wfLinks c.links) →
      (chainHasKey ⟨cs.foldl
          (fun acc c => c.links.foldl (fun m p => mergeLinkInto m p.2) acc)
          m⟩ t = true ↔
        chainHasKey ⟨m⟩ t = true ∨ ∃ c ∈ cs, chainHasKey c t = true) := by
    intro cs
    induction cs with
    | nil => intro m _; simp
    | cons c rest ih =>
        intro m hcs
        simp only [List.foldl_cons]
        rw [ih _ (fun c' hc' => hcs c' (List.mem_cons_of_mem _ hc')),
          foldl_merge_has c.links m (hcs c (by simp))]
        have : (chainHasKey ⟨c.links⟩ t = true ↔ chainHasKey c t = true) :=
          Iff.rfl
        simp only [List.mem_cons]
        constructor
        · rintro ((hm | hc) | ⟨c', hc', hk⟩)
          · exact Or.inl hm
          · exact Or.inr ⟨c, Or.inl rfl, hc⟩
          · exact Or.inr ⟨c', Or.inr hc', hk⟩
        · rintro (hm | ⟨c', hc' | hc', hk⟩)
          · exact Or.inl (Or.inl hm)
          · subst hc'; exact Or.inl (Or.inr hk)
          · exact Or.inr ⟨c', hc', hk⟩
  have := main chains [] h
  have hnil : chainHasKey (⟨[]⟩ : SingleKeyChain) t = false := by
    simp [chainHasKey, mapGet]
  rw [mergeChains]
  simp only at this
  rw [this]
  simp [hnil]

theorem wf_of_mapped_buildChain (streams : List (List String)) :
    ∀ c ∈ streams.map buildChain, wfLinks c.links := by
  intro c hc
  simp only [List.mem_map] at hc
  obtain ⟨ts, _, rfl⟩ := hc
  exact buildChain_wf ts

/-- C3: merging per-stream count tables is commutative and associative —
merging the tables of any permutation of the streams, or merging two
groups separately and then merging the results, yields identical
occurrence counts and identical totals for every token. -/
theorem claim_C3_merge_comm_assoc :
    (∀ streams streams' : List (List String), streams.Perm streams' →
      ∀ t n : String,
        chainOcc (mergeChains (streams.map buildChain)) t n =
          chainOcc (mergeChains (streams'.map buildChain)) t n ∧
        chainTotal (mergeChains (streams.map buildChain)) t =
          chainTotal (mergeChains (streams'.map buildChain)) t) ∧
    (∀ streamsA streamsB : List (List String), ∀ t n : String,
        chainOcc (mergeChains
            [mergeChains (streamsA.map buildChain),
             mergeChains (streamsB.map buildChain)]) t n =
          chainOcc (mergeChains ((streamsA ++ streamsB).map buildChain)) t n ∧
        chainTotal (mergeChains
            [mergeChains (streamsA.map buildChain),
             mergeChains (streamsB.map buildChain)]) t =
          chainTotal (mergeChains ((streamsA ++ streamsB).map buildChain)) t) := by
  constructor
  · intro streams streams' hperm t n
    have hp : (streams.map buildChain).Perm (streams'.map buildChain) :=
      hperm.map buildChain
    constructor
    · rw [mergeChains_occ _ (wf_of_mapped_buildChain streams),
        mergeChains_occ _ (wf_of_mapped_buildChain streams')]
      exact (hp.map (fun c => chainOcc c t n)).sum_eq
    · rw [mergeChains_tot _ (wf_of_mapped_buildChain streams),
        mergeChains_tot _ (wf_of_mapped_buildChain streams')]
      exact (hp.map (fun c => chainTotal c t)).sum_eq
  · intro streamsA streamsB t n
    have hwfA := wf_of_mapped_buildChain streamsA
    have hwfB := wf_of_mapped_buildChain streamsB
    have hwfAB := wf_of_mapped_buildChain (streamsA ++ streamsB)
    have hwfM : ∀ c ∈ [mergeChains (streamsA.map buildChain),
        mergeChains (streamsB.map buildChain)], wfLinks c.links := by
      intro c hc
      simp only [List.mem_cons, List.mem_singleton] at hc
      rcases hc with rfl | rfl | h
      · exact mergeChains_wf _
      · exact mergeChains_wf _
      · cases h
    constructor
    · rw [mergeChains_occ _ hwfM, mergeChains_occ _ hwfAB]
      simp only [List.map_cons, List.map_nil, List.sum_cons, List.sum_nil,
        List.map_append, List.sum_append]
      rw [mergeChains_occ _ hwfA, mergeChains_occ _ hwfB]
      omega
    · rw [mergeChains_tot _ hwfM, mergeChains_tot _ hwfAB]
      simp only [List.map_cons, List.map_nil, List.sum_cons, List.sum_nil,
        List.map_append, List.sum_append]
      rw [mergeChains_tot _ hwfA, mergeChains_tot _ hwfB]
      omega

/-- Witness for C3: swapping the two streams `["a"]` and `["b"]`. -/
theorem claim_C3_merge_comm_assoc_witness :
    chainOcc (mergeChains ([["a"], ["b"]].map buildChain)) "" "a" =
      chainOcc (mergeChains ([["b"], ["a"]].map buildChain)) "" "a" ∧
    chainTotal (mergeChains ([["a"], ["b"]].map buildChain)) "" =
      chainTotal (mergeChains ([["b"], ["a"]].map buildChain)) "" :=
  claim_C3_merge_comm_assoc.1 [["a"], ["b"]] [["b"], ["a"]]
    (List.Perm.swap ["b"] ["a"] []) "" "a"

/-- C4: merging a per-stream count table with an empty table yields a chain
with exactly the same source tokens, occurrence counts and totals — merging
with an empty table is the identity, in either argument order. -/
theorem claim_C4_merge_empty_identity (ts : List String) (t n : String) :
    (chainHasKey (mergeChains [buildChain ts, ⟨[]⟩]) t =
        chainHasKey (buildChain ts) t ∧
      chainOcc (mergeChains [buildChain ts, ⟨[]⟩]) t n =
        chainOcc (buildChain ts) t n ∧
      chainTotal (mergeChains [buildChain ts, ⟨[]⟩]) t =
        chainTotal (buildChain ts) t) ∧
    (chainHasKey (mergeChains [⟨[]⟩, buildChain ts]) t =
        chainHasKey (buildChain ts) t ∧
      chainOcc (mergeChains [⟨[]⟩, buildChain ts]) t n =
        chainOcc (buildChain ts) t n ∧
      chainTotal (mergeChains [⟨[]⟩, buildChain ts]) t =
        chainTotal (buildChain ts) t) := by
  have hwfE : wfLinks (⟨[]⟩ : SingleKeyChain).links := ⟨by simp, by simp⟩
  have hwf1 : ∀ c ∈ [buildChain ts, (⟨[]⟩ : SingleKeyChain)],
      wfLinks c.links := by
    intro c hc
    simp only [List.mem_cons, List.mem_singleton] at hc
    rcases hc with rfl | rfl | h
    · exact buildChain_wf ts
    · exact hwfE
    · cases h
  have hwf2 : ∀ c ∈ [(⟨[]⟩ : SingleKeyChain), buildChain ts],
      wfLinks c.links := by
    intro c hc
    simp only [List.mem_cons, List.mem_singleton] at hc
    rcases hc with rfl | rfl | h
    · exact hwfE
    · exact buildChain_wf ts
    · cases h
  have hE_occ : ∀ n', chainOcc ⟨[]⟩ t n' = 0 := by
    intro n'; simp [chainOcc, mapGet]
  have hE_tot : chainTotal ⟨[]⟩ t = 0 := by simp [chainTotal, mapGet]
  have hE_has : chainHasKey ⟨[]⟩ t = false := by simp [chainHasKey, mapGet]
  refine ⟨⟨?_, ?_, ?_⟩, ⟨?_, ?_, ?_⟩⟩
  · rw [Bool.eq_iff_iff, mergeChains_has _ hwf1]
    simp [hE_has]
  · rw [mergeChains_occ _ hwf1]
    simp [hE_occ]
  · rw [mergeChains_tot _ hwf1]
    simp [hE_tot]
  · rw [Bool.eq_iff_iff, mergeChains_has _ hwf2]
    simp [hE_has]
  · rw [mergeChains_occ _ hwf2]
    simp [hE_occ]
  · rw [mergeChains_tot _ hwf2]
    simp [hE_tot]

/-! ## Filters (`filter.go`) -/

/-- A `SourceFilter`: expands a candidate token into the resulting tokens,
or fails. -/
def SourceFilter : Type := String → Except String (List String)

/-- The stream produced by wrapping a source in one `filteredSource`
(`filteredSource.NextToken`): each upstream candidate is expanded by the
filter, a zero-length expansion is dropped, a multi-token expansion is
queued and emitted in order before the next upstream token; a filter error
ends the stream with that error, and once the upstream tokens are
exhausted the upstream's own termination (EOF or error) is surfaced. -/
def applyFilterTokens (filter : SourceFilter) :
    List String → Option String → List String × Option String
  | [], upstreamErr => ([], upstreamErr)
  | candidate :: rest, upstreamErr =>
      match filter candidate with
      | .error e => ([], some e)
      | .ok toks =>
          let out := applyFilterTokens filter rest upstreamErr
          (toks ++ out.1, out.2)

/-- One `filteredSource` layer, as a transformer of observed streams. -/
def applyFilter (filter : SourceFilter) (s : Source) : Source :=
  { tokens := (applyFilterTokens filter s.tokens s.err).1,
    err := (applyFilterTokens filter s.tokens s.err).2 }

/-- `ApplyFiltersToSource`: wrap the source in one `filteredSource` per
filter, in order, so the first filter in the list is applied to candidates
first. -/
def applyFiltersToSource (source : Source) (filters : List SourceFilter) :
    Source :=
  filters.foldl (fun src f => applyFilter f src) source

/-- Go `strings.ToLower`, embedded character-wise. -/
def toLowerGo (s : String) : String := ⟨s.data.map Char.toLower⟩

/-- Go `strings.TrimSpace`: drop leading and trailing whitespace. -/
def trimGo (s : String) : String :=
  ⟨((s.data.dropWhile Char.isWhitespace).reverse.dropWhile
      Char.isWhitespace).reverse⟩

/-- `TrimFilter`. -/
def trimFilter : SourceFilter := fun candidate => .ok [trimGo candidate]

/-- `LowercaseFilter`. -/
def lowercaseFilter : SourceFilter := fun candidate => .ok [toLowerGo candidate]

theorem applyFilterTokens_err_isSome (filter : SourceFilter)
    (tokens : List String) (e : String) :
    (applyFilterTokens filter tokens (some e)).2.isSome := by
  induction tokens with
  | nil => simp [applyFilterTokens]
  | cons c rest ih =>
      cases hf : filter c with
      | error e' => simp [applyFilterTokens, hf]
      | ok toks => simpa [applyFilterTokens, hf] using ih

/-- C8: if any stream's token source — or a filter wrapped around it —
fails with a non-EOF error, the build returns an error drawn from a failing
source and no chain; it never returns a chain built from a partial view. -/
theorem claim_C8_error_propagation :
    (∀ (sources : List Source) (e : String),
      (∃ s ∈ sources, s.err = some e) →
      ∃ e', buildChainFromSources sources = .error e' ∧
        ∃ s' ∈ sources, s'.err = some e') ∧
    (∀ (filter : SourceFilter) (s : Source) (e : String),
      s.err = some e → (applyFilter filter s).err.isSome) := by
  constructor
  · intro sources e he
    obtain ⟨s, hs, herr⟩ := he
    have main : ∀ (ss : List Source), s ∈ ss →
        ∃ e', ss.findSome? (·.err) = some e' ∧
          ∃ s' ∈ ss, s'.err = some e' := by
      intro ss
      induction ss with
      | nil => intro h; cases h
      | cons a rest ih =>
          intro hmem
          cases ha : a.err with
          | some x =>
              exact ⟨x, by simp [List.findSome?_cons, ha],
                a, by simp, ha⟩
          | none =>
              rcases List.mem_cons.mp hmem with rfl | hmem'
              · rw [herr] at ha; cases ha
              · obtain ⟨e', hfs, s', hs', he'⟩ := ih hmem'
                exact ⟨e', by simp [List.findSome?_cons, ha, hfs],
                  s', List.mem_cons_of_mem _ hs', he'⟩
    obtain ⟨e', hfs, hsrc⟩ := main sources hs
    exact ⟨e', by simp [buildChainFromSources, hfs], hsrc⟩
  · intro filter s e he
    simp only [applyFilter, he]
    exact applyFilterTokens_err_isSome filter s.tokens e

/-- Witness for C8: a single source failing with `"boom"`. -/
theorem claim_C8_error_propagation_witness :
    (∃ e', buildChainFromSources [⟨[], some "boom"⟩] = .error e' ∧
      ∃ s' ∈ [(⟨[], some "boom"⟩ : Source)], s'.err = some e') ∧
    (applyFilter trimFilter ⟨[], some "boom"⟩).err.isSome :=
  ⟨claim_C8_error_propagation.1 [⟨[], some "boom"⟩] "boom"
      ⟨⟨[], some "boom"⟩, by simp, rfl⟩,
   claim_C8_error_propagation.2 trimFilter ⟨[], some "boom"⟩ "boom" rfl⟩

theorem applyFilterTokens_drop (filter : SourceFilter)
    (pre post : List String) (t : String) (e : Option String)
    (hf : filter t = .ok []) :
    applyFilterTokens filter (pre ++ t :: post) e =
      applyFilterTokens filter (pre ++ post) e := by
  induction pre with
  | nil => simp [applyFilterTokens, hf]
  | cons a pre ih =>
      cases hfa : filter a with
      | error e' => simp [applyFilterTokens, hfa]
      | ok toks => simp [applyFilterTokens, hfa, ih]

/-- C9: a filtered token source drops a candidate whose filter expansion is
empty, emits a multi-token expansion in order before the next upstream
token, and running trim-then-lowercase over the single-token stream
`"  Foo  "` yields a chain containing the token `foo` and not `"  Foo  "`. -/
theorem claim_C9_filter_pipeline :
    (∀ (filter : SourceFilter) (pre post : List String) (t : String)
        (e : Option String),
      filter t = .ok [] →
      applyFilter filter ⟨pre ++ t :: post, e⟩ =
        applyFilter filter ⟨pre ++ post, e⟩) ∧
    (∀ (filter : SourceFilter) (t : String) (toks rest : List String)
        (e : Option String),
      filter t = .ok toks →
      (applyFilter filter ⟨t :: rest, e⟩).tokens =
        toks ++ (applyFilter filter ⟨rest, e⟩).tokens ∧
      (applyFilter filter ⟨t :: rest, e⟩).err =
        (applyFilter filter ⟨rest, e⟩).err) ∧
    (∃ c : SingleKeyChain,
      buildChainFromSources
          [applyFiltersToSource ⟨["  Foo  "], none⟩
            [trimFilter, lowercaseFilter]] = .ok c ∧
      chainHasKey c "foo" = true ∧
      chainHasKey c "  Foo  " = false) := by
  refine ⟨?_, ?_, ?_⟩
  · intro filter pre post t e hf
    simp only [applyFilter]
    rw [applyFilterTokens_drop filter pre post t e hf]
  · intro filter t toks rest e hf
    constructor
    · simp [applyFilter, applyFilterTokens, hf]
    · simp [applyFilter, applyFilterTokens, hf]
  · exact ⟨{ links :=
        [("", { token := "", nextTokenOccurrences := [("foo", 1)],
                total := 1 }),
         ("foo", { token := "foo", nextTokenOccurrences := [("", 1)],
                   total := 1 })] },
      by decide, by decide, by decide⟩

/-- Witness for C9: a filter that drops everything, and one that expands a
token into two. -/
theorem claim_C9_filter_pipeline_witness :
    (applyFilter (fun _ => Except.ok []) ⟨[] ++ "a" :: ["b"], none⟩ =
      applyFilter (fun _ => Except.ok []) ⟨[] ++ ["b"], none⟩) ∧
    (applyFilter (fun _ => Except.ok ["x", "y"]) ⟨"a" :: [], none⟩).tokens =
      ["x", "y"] ++ (applyFilter (fun _ => Except.ok ["x", "y"]) ⟨[], none⟩).tokens :=
  ⟨claim_C9_filter_pipeline.1 (fun _ => Except.ok []) [] ["b"] "a" none rfl,
   (claim_C9_filter_pipeline.2.1 (fun _ => Except.ok ["x", "y"]) "a"
     ["x", "y"] [] none rfl).1⟩

/-! ## Scanners (`scanners.go` in its two revisions) -/

/-- A `bufio.Scanner` as observed by the build loops: the lines it yields,
then either clean termination (`Err() == nil`, `none`) or a scan error. -/
structure Scanner where
  lines : List String
  err : Option String
deriving Repr, DecidableEq

/-- `bufioScannerSource`: the adapter revision wraps a scanner as a
`TokenSource` that yields every line and then `io.EOF` or the scan error. -/
def scannerSource (sc : Scanner) : Source := ⟨sc.lines, sc.err⟩

/-- The adapter revision of `BuildChainFromScanners`:
`BuildChainFromSources(SourcesFromScanners(scanners...)...)`. -/
def buildChainFromScannersAdapter (scanners : List Scanner) :
    Except String SingleKeyChain :=
  buildChainFromSources (scanners.map scannerSource)

/-- The direct revision of `BuildChainFromScanners`: each scanner goroutine
sends its lines straight into a token channel, skipping empty strings
(`if str := localVal.Text(); str != ""`); scan errors go to the error
channel (like `BuildChainFromSources`, which error wins the `select` under
several failures is a race, determinized here to the first in slice
order). -/
def buildChainFromScannersDirect (scanners : List Scanner) :
    Except String SingleKeyChain :=
  match scanners.findSome? (·.err) with
  | some e => .error e
  | none =>
      .ok (mergeChains (scanners.map
        (fun sc => buildChain (sc.lines.filter (fun str => str != "")))))

/-- C10 counterexample: on a scanner that yields one empty line, the direct
revision drops the empty token while the adapter revision feeds it through,
so the two chains differ. -/
theorem claim_C10_counterexample :
    buildChainFromScannersDirect [⟨[""], none⟩] ≠
      buildChainFromScannersAdapter [⟨[""], none⟩] := by
  decide

/-- C10 (amended): for scanners that terminate without error and none of
whose lines are empty, the direct revision of `BuildChainFromScanners` and
the adapter revision produce identical chains. -/
theorem claim_C10_scanner_refinement (scanners : List Scanner)
    (herr : ∀ sc ∈ scanners, sc.err = none)
    (hne : ∀ sc ∈ scanners, "" ∉ sc.lines) :
    buildChainFromScannersDirect scanners =
      buildChainFromScannersAdapter scanners := by
  have hfind : ∀ (scs : List Scanner), (∀ sc ∈ scs, sc.err = none) →
      scs.findSome? (·.err) = none := by
    intro scs h
    induction scs with
    | nil => simp
    | cons a rest ih =>
        simp only [List.findSome?_cons]
        rw [h a (by simp)]
        exact ih (fun sc hsc => h sc (List.mem_cons_of_mem _ hsc))
  have hfind2 : (scanners.map scannerSource).findSome? (·.err) = none := by
    induction scanners with
    | nil => simp
    | cons a rest ih =>
        simp only [List.map_cons, List.findSome?_cons]
        have : (scannerSource a).err = none := herr a (by simp)
        rw [this]
        exact ih (fun sc hsc => herr sc (List.mem_cons_of_mem _ hsc))
          (fun sc hsc => hne sc (List.mem_cons_of_mem _ hsc))
  rw [buildChainFromScannersDirect, buildChainFromScannersAdapter,
    buildChainFromSources, hfind scanners herr, hfind2]
  have hmaps : scanners.map
      (fun sc => buildChain (sc.lines.filter (fun str => str != ""))) =
      (scanners.map scannerSource).map (fun s => buildChain s.tokens) := by
    rw [List.map_map]
    apply List.map_congr_left
    intro sc hsc
    have : sc.lines.filter (fun str => str != "") = sc.lines := by
      apply List.filter_eq_self.mpr
      intro a ha
      have : a ≠ "" := fun h => hne sc hsc (h ▸ ha)
      simpa using this
    simp [Function.comp, scannerSource, this]
  rw [hmaps]

/-- Witness for the amended C10 on a clean two-line scanner. -/
theorem claim_C10_scanner_refinement_witness :
    buildChainFromScannersDirect [⟨["a", "b"], none⟩] =
      buildChainFromScannersAdapter [⟨["a", "b"], none⟩] :=
  claim_C10_scanner_refinement [⟨["a", "b"], none⟩]
    (by intro sc hsc; simp at hsc; simp [hsc])
    (by intro sc hsc; simp at hsc; simp [hsc])

/-! ## The distribution of `GetNextToken`

`rand.Intn(l.Total)` is uniform on `[0, total)` and Go randomizes the map
iteration order on every call, so the distribution of `GetNextToken` is
counted over all pairs of an iteration order (a permutation of the
occurrence entries) and a drawn goal value. -/

/-- Key of the first occurrence entry in a given iteration order. -/
def firstKey (σ : List (String × Nat)) : Option String :=
  σ.head?.map Prod.fst

/-- Key of the last occurrence entry in a given iteration order. -/
def lastKey (σ : List (String × Nat)) : Option String :=
  σ.getLast?.map Prod.fst

/-- Number of goal values in `[0, sum)` for which the walk over the entries
in order `σ` returns `x`. -/
def countGoals (σ : List (String × Nat)) (x : String) : Nat :=
  (List.range (sumCounts σ)).countP
    (fun g => decide (getNextTokenWalk σ 0 g = some x))

/-- Same count, restricted to positive goal values. -/
def countGoalsPos (σ : List (String × Nat)) (x : String) : Nat :=
  (List.range (sumCounts σ)).countP
    (fun g => decide (1 ≤ g ∧ getNextTokenWalk σ 0 g = some x))

/-- Number of (iteration order, drawn goal) pairs on which `GetNextToken`
returns `x`: orders range over all permutations of the stored occurrence
entries, goals over `[0, total)`. -/
def drawCount (l : SingleTokenLink) (x : String) : Nat :=
  (l.nextTokenOccurrences.permutations'.map
    (fun σ =>
      (List.range l.total).countP
        (fun g =>
          decide (getNextToken { l with nextTokenOccurrences := σ } g = x)))).sum

theorem getNextTokenWalk_shift (σ : List (String × Nat)) (s g d : Nat) :
    getNextTokenWalk σ (s + d) (g + d) = getNextTokenWalk σ s g := by
  induction σ generalizing s with
  | nil => simp [getNextTokenWalk]
  | cons kv rest ih =>
      obtain ⟨k, v⟩ := kv
      by_cases h : g ≤ s + v
      · have h' : g + d ≤ s + d + v := by omega
        simp [getNextTokenWalk, h, h']
      · have h' : ¬ g + d ≤ s + d + v := by omega
        have harr : s + d + v = s + v + d := by omega
        simp only [getNextTokenWalk, if_neg h, if_neg h']
        rw [harr, ih]

theorem getNextTokenWalk_cons_le {k : String} {v : Nat}
    {rest : List (String × Nat)} {s g : Nat} (h : g ≤ s + v) :
    getNextTokenWalk ((k, v) :: rest) s g = some k := by
  simp [getNextTokenWalk, h]

theorem getNextTokenWalk_cons_gt {k : String} {v : Nat}
    {rest : List (String × Nat)} {s g : Nat} (h : ¬ g ≤ s + v) :
    getNextTokenWalk ((k, v) :: rest) s g =
      getNextTokenWalk rest (s + v) g := by
  simp [getNextTokenWalk, h]

theorem lastKey_mem {σ : List (String × Nat)} {x : String}
    (h : lastKey σ = some x) : x ∈ σ.map Prod.fst := by
  unfold lastKey at h
  rcases Option.map_eq_some'.mp h with ⟨p, hp, hx⟩
  exact hx ▸ List.mem_map_of_mem Prod.fst (List.mem_of_mem_getLast? hp)

theorem sumCounts_pos {σ : List (String × Nat)} (hne : σ ≠ [])
    (hpos : ∀ p ∈ σ, 0 < p.2) : 0 < sumCounts σ := by
  cases σ with
  | nil => exact absurd rfl hne
  | cons q rest =>
      have := hpos q (by simp)
      simp [sumCounts]
      omega

theorem countP_one_le_range (v : Nat) :
    (List.range v).countP (fun g => decide (1 ≤ g)) = v - 1 := by
  induction v with
  | zero => simp
  | succ n ih =>
      rw [List.range_succ, List.countP_append, ih]
      rcases Nat.eq_zero_or_pos n with rfl | h
      · simp
      · have hd : (fun g => decide (1 ≤ g)) n = true := by
          simp only [decide_eq_true_eq]
          omega
        simp only [List.countP_cons, List.countP_nil, hd, if_true]
        omega

theorem countP_eq_zero_range (S : Nat) :
    (List.range S).countP (fun g => decide (g = 0)) =
      if 0 < S then 1 else 0 := by
  cases S with
  | zero => simp
  | succ n =>
      rw [List.range_succ_eq_map]
      simp only [List.countP_cons, List.countP_map]
      have : List.countP ((fun g => decide (g = 0)) ∘ Nat.succ)
          (List.range n) = 0 := by
        rw [List.countP_eq_zero]
        intro g _
        simp
      simp [this]

/-- Fixed iteration order: among positive goals in `[0, sum)`, the walk
returns `x` exactly `c` times, except one fewer when `x`'s entry is last
(the head entry instead absorbs goal 0, counted separately). -/
theorem countGoalsPos_add_last (σ : List (String × Nat)) (x : String)
    (c : Nat) (hnd : (σ.map Prod.fst).Nodup) (hpos : ∀ p ∈ σ, 0 < p.2)
    (hmem : (x, c) ∈ σ) :
    countGoalsPos σ x + (if lastKey σ = some x then 1 else 0) = c := by
  induction σ with
  | nil => cases hmem
  | cons kv rest ih =>
      obtain ⟨k, v⟩ := kv
      have hv : 0 < v := hpos (k, v) (by simp)
      simp only [List.map_cons, List.nodup_cons] at hnd
      obtain ⟨hknot, hndrest⟩ := hnd
      have hposrest : ∀ p ∈ rest, 0 < p.2 :=
        fun p hp => hpos p (List.mem_cons_of_mem _ hp)
      have hsum : sumCounts ((k, v) :: rest) = v + sumCounts rest := by
        simp [sumCounts]
      have hexpand : countGoalsPos ((k, v) :: rest) x =
          (List.range v).countP
            (fun g => decide (1 ≤ g ∧
              getNextTokenWalk ((k, v) :: rest) 0 g = some x)) +
          (List.range (sumCounts rest)).countP
            ((fun g => decide (1 ≤ g ∧
              getNextTokenWalk ((k, v) :: rest) 0 g = some x)) ∘
              (fun y => v + y)) := by
        unfold countGoalsPos
        rw [hsum, List.range_add, List.countP_append, List.countP_map]
      have hshift : ∀ g : Nat, 1 ≤ g →
          getNextTokenWalk ((k, v) :: rest) 0 (v + g) =
            getNextTokenWalk rest 0 g := by
        intro g hg
        rw [getNextTokenWalk_cons_gt (by omega)]
        have : v + g = g + v := by omega
        rw [this, show (0 : Nat) + v = 0 + v from rfl,
          getNextTokenWalk_shift]
      rcases eq_or_ne k x with hk | hk
      · -- the head entry is x's entry
        have hc : c = v := by
          rcases List.mem_cons.mp hmem with h | h
          · cases h; rfl
          · exfalso
            apply hknot
            rw [hk]
            exact List.mem_map_of_mem Prod.fst h
        have hpart1 : (List.range v).countP
            (fun g => decide (1 ≤ g ∧
              getNextTokenWalk ((k, v) :: rest) 0 g = some x)) = v - 1 := by
          rw [List.countP_congr, countP_one_le_range]
          intro g hg
          simp only [decide_eq_true_eq]
          have hgv : g < v := List.mem_range.mp hg
          rw [getNextTokenWalk_cons_le (by omega)]
          simp [hk]
        have hpart2 : (List.range (sumCounts rest)).countP
            ((fun g => decide (1 ≤ g ∧
              getNextTokenWalk ((k, v) :: rest) 0 g = some x)) ∘
              (fun y => v + y)) =
            if 0 < sumCounts rest then 1 else 0 := by
          rw [List.countP_congr (q := fun g => decide (g = 0)),
            countP_eq_zero_range]
          intro g hg
          simp only [Function.comp, decide_eq_true_eq]
          rcases Nat.eq_zero_or_pos g with rfl | hg1
          · rw [show v + 0 = v from rfl,
              getNextTokenWalk_cons_le (by omega)]
            simp [hk]
            omega
          · rw [hshift g hg1]
            constructor
            · rintro ⟨-, hwx⟩
              exfalso
              apply hknot
              rw [hk]
              exact getNextTokenWalk_mem hwx
            · intro h
              omega
        rw [hexpand, hpart1, hpart2]
        cases rest with
        | nil =>
            have : lastKey [(k, v)] = some k := by simp [lastKey]
            rw [this]
            simp [sumCounts, hk, hc]
            omega
        | cons r rs =>
            have hS : 0 < sumCounts (r :: rs) :=
              sumCounts_pos (by simp) hposrest
            have hlast : lastKey ((k, v) :: r :: rs) = lastKey (r :: rs) := by
              simp [lastKey]
            rw [hlast]
            have : ¬ lastKey (r :: rs) = some x := by
              intro h
              apply hknot
              rw [hk]
              exact lastKey_mem h
            simp [hS, this, hc]
            omega
      · -- x's entry is in the tail
        have hmem' : (x, c) ∈ rest := by
          rcases List.mem_cons.mp hmem with h | h
          · exfalso
            apply hk
            cases h
            rfl
          · exact h
        have hpart1 : (List.range v).countP
            (fun g => decide (1 ≤ g ∧
              getNextTokenWalk ((k, v) :: rest) 0 g = some x)) = 0 := by
          rw [List.countP_eq_zero]
          intro g hg
          simp only [decide_eq_true_eq]
          have hgv : g < v := List.mem_range.mp hg
          rw [getNextTokenWalk_cons_le (by omega)]
          rintro ⟨-, hs⟩
          exact hk (Option.some.inj hs)
        have hpart2 : (List.range (sumCounts rest)).countP
            ((fun g => decide (1 ≤ g ∧
              getNextTokenWalk ((k, v) :: rest) 0 g = some x)) ∘
              (fun y => v + y)) = countGoalsPos rest x := by
          unfold countGoalsPos
          apply List.countP_congr
          intro g hg
          simp only [Function.comp, decide_eq_true_eq]
          rcases Nat.eq_zero_or_pos g with rfl | hg1
          · rw [show v + 0 = v from rfl,
              getNextTokenWalk_cons_le (by omega)]
            constructor
            · rintro ⟨-, hs⟩
              exact absurd (Option.some.inj hs) hk
            · intro h
              omega
          · rw [hshift g hg1]
            constructor
            · rintro ⟨-, hwx⟩
              exact ⟨hg1, hwx⟩
            · rintro ⟨-, hwx⟩
              exact ⟨by omega, hwx⟩
        cases rest with
        | nil => cases hmem'
        | cons r rs =>
            have hlast : lastKey ((k, v) :: r :: rs) = lastKey (r :: rs) := by
              simp [lastKey]
            rw [hexpand, hpart1, hpart2, hlast, Nat.zero_add]
            exact ih hndrest hposrest hmem'

/-- Counting goal 0 separately: it always lands on the head entry. -/
theorem countGoals_eq_pos_add_first (σ : List (String × Nat)) (x : String)
    (hne : σ ≠ []) (hpos : ∀ p ∈ σ, 0 < p.2) :
    countGoals σ x =
      countGoalsPos σ x + (if firstKey σ = some x then 1 else 0) := by
  obtain ⟨⟨k, v⟩, rest, rfl⟩ : ∃ q rest, σ = q :: rest := by
    cases σ with
    | nil => exact absurd rfl hne
    | cons q rest => exact ⟨q, rest, rfl⟩
  have hv : 0 < v := hpos (k, v) (by simp)
  have hS : 0 < sumCounts ((k, v) :: rest) := sumCounts_pos (by simp) hpos
  obtain ⟨m, hm⟩ : ∃ m, sumCounts ((k, v) :: rest) = m + 1 :=
    ⟨sumCounts ((k, v) :: rest) - 1, by omega⟩
  unfold countGoals countGoalsPos
  rw [hm, List.range_succ_eq_map, List.countP_cons, List.countP_cons,
    List.countP_map, List.countP_map]
  have hzero : getNextTokenWalk ((k, v) :: rest) 0 0 = some k :=
    getNextTokenWalk_cons_le (by omega)
  have hfirst : firstKey ((k, v) :: rest) = some k := by simp [firstKey]
  have hcongr : List.countP
      ((fun g => decide (getNextTokenWalk ((k, v) :: rest) 0 g = some x)) ∘
        Nat.succ) (List.range m) =
      List.countP
        ((fun g => decide (1 ≤ g ∧
          getNextTokenWalk ((k, v) :: rest) 0 g = some x)) ∘ Nat.succ)
        (List.range m) := by
    apply List.countP_congr
    intro g _
    simp only [Function.comp, decide_eq_true_eq]
    constructor
    · intro h
      exact ⟨by omega, h⟩
    · rintro ⟨-, h⟩
      exact h
  rw [hcongr, hfirst]
  simp only [hzero, decide_eq_true_eq, Option.some.injEq]
  by_cases hkx : k = x <;> simp [hkx]

/-- Fixed iteration order: the goal count for `x` is its stored count,
shifted up by one when `x`'s entry is iterated first and down by one when
it is iterated last. -/
theorem countGoals_add_last (σ : List (String × Nat)) (x : String) (c : Nat)
    (hnd : (σ.map Prod.fst).Nodup) (hpos : ∀ p ∈ σ, 0 < p.2)
    (hmem : (x, c) ∈ σ) :
    countGoals σ x + (if lastKey σ = some x then 1 else 0) =
      c + (if firstKey σ = some x then 1 else 0) := by
  have hne : σ ≠ [] := by rintro rfl; cases hmem
  rw [countGoals_eq_pos_add_first σ x hne hpos]
  have := countGoalsPos_add_last σ x c hnd hpos hmem
  omega

/-- Reversing each iteration order is a bijection on the set of orders that
swaps first and last entries, so `x` is first in exactly as many orders as
it is last. -/
theorem countP_last_eq_first (occ : List (String × Nat)) (hnd : occ.Nodup)
    (x : String) :
    occ.permutations'.countP (fun σ => decide (lastKey σ = some x)) =
      occ.permutations'.countP (fun σ => decide (firstKey σ = some x)) := by
  have hpermsnd : occ.permutations'.Nodup :=
    ((occ.permutations_perm_permutations').nodup_iff).mp
      (List.nodup_permutations occ hnd)
  have hmapnd : (occ.permutations'.map List.reverse).Nodup :=
    hpermsnd.map List.reverse_injective
  have hperm : (occ.permutations'.map List.reverse).Perm occ.permutations' := by
    rw [List.perm_ext_iff_of_nodup hmapnd hpermsnd]
    intro τ
    simp only [List.mem_map, List.mem_permutations']
    constructor
    · rintro ⟨σ, hσ, rfl⟩
      exact (σ.reverse_perm).trans hσ
    · intro hτ
      exact ⟨τ.reverse, (List.reverse_perm τ).trans hτ, τ.reverse_reverse⟩
  calc occ.permutations'.countP (fun σ => decide (lastKey σ = some x))
      = (occ.permutations'.map List.reverse).countP
          (fun σ => decide (lastKey σ = some x)) :=
        (hperm.countP_eq _).symm
    _ = occ.permutations'.countP
          ((fun σ => decide (lastKey σ = some x)) ∘ List.reverse) :=
        List.countP_map _ _ _
    _ = occ.permutations'.countP (fun σ => decide (firstKey σ = some x)) := by
        apply List.countP_congr
        intro σ _
        simp only [Function.comp, decide_eq_true_eq]
        unfold lastKey firstKey
        rw [List.getLast?_reverse]

theorem sum_add_countP (L : List (List (String × Nat))) (x : String) (c : Nat)
    (h : ∀ σ ∈ L, countGoals σ x + (if lastKey σ = some x then 1 else 0) =
      c + (if firstKey σ = some x then 1 else 0)) :
    (L.map (fun σ => countGoals σ x)).sum +
        L.countP (fun σ => decide (lastKey σ = some x)) =
      c * L.length + L.countP (fun σ => decide (firstKey σ = some x)) := by
  induction L with
  | nil => simp
  | cons σ L ih =>
      have hσ := h σ (by simp)
      have hL := ih (fun τ hτ => h τ (List.mem_cons_of_mem _ hτ))
      simp only [List.map_cons, List.sum_cons, List.countP_cons,
        List.length_cons, Nat.mul_succ, decide_eq_true_eq]
      generalize c * L.length = M at hL
      by_cases h1 : lastKey σ = some x <;>
        by_cases h2 : firstKey σ = some x <;>
        simp [h1, h2] at hσ ⊢ <;> omega

/-- Summed over all iteration orders, the `+1` for the order's first entry
and the `-1` for its last cancel: `x` is drawn `c` times per order on
average. -/
theorem sum_countGoals_perms (occ : List (String × Nat)) (x : String)
    (c : Nat) (hnd : (occ.map Prod.fst).Nodup)
    (hpos : ∀ p ∈ occ, 0 < p.2) (hmem : (x, c) ∈ occ) :
    (occ.permutations'.map (fun σ => countGoals σ x)).sum =
      c * occ.permutations'.length := by
  have hocc_nd : occ.Nodup := List.Nodup.of_map Prod.fst hnd
  have hper : ∀ σ ∈ occ.permutations',
      countGoals σ x + (if lastKey σ = some x then 1 else 0) =
        c + (if firstKey σ = some x then 1 else 0) := by
    intro σ hσ
    have hp : σ.Perm occ := List.mem_permutations'.mp hσ
    have hnd' : (σ.map Prod.fst).Nodup := ((hp.map Prod.fst).nodup_iff).mpr hnd
    have hpos' : ∀ p ∈ σ, 0 < p.2 := fun p hpσ => hpos p (hp.mem_iff.mp hpσ)
    have hmem' : (x, c) ∈ σ := hp.mem_iff.mpr hmem
    exact countGoals_add_last σ x c hnd' hpos' hmem'
  have h1 := sum_add_countP occ.permutations' x c hper
  have h2 := countP_last_eq_first occ hocc_nd x
  generalize c * occ.permutations'.length = M at h1 ⊢
  omega

/-- On each iteration order, `GetNextToken` (with its `""` fallback) agrees
with the walk wherever the goal is in range. -/
theorem drawCount_eq_sum (l : SingleTokenLink) (x : String)
    (hsum : l.total = sumCounts l.nextTokenOccurrences) :
    drawCount l x =
      (l.nextTokenOccurrences.permutations'.map
        (fun σ => countGoals σ x)).sum := by
  unfold drawCount
  congr 1
  apply List.map_congr_left
  intro σ hσ
  have hp : σ.Perm l.nextTokenOccurrences := List.mem_permutations'.mp hσ
  have hsum' : sumCounts σ = sumCounts l.nextTokenOccurrences := by
    unfold sumCounts
    exact (hp.map Prod.snd).sum_eq
  unfold countGoals
  rw [hsum, ← hsum']
  apply List.countP_congr
  intro g hg
  have hgS : g < sumCounts σ := List.mem_range.mp hg
  have hne : σ ≠ [] := by
    rintro rfl
    simp [sumCounts] at hgS
  have hsome := getNextTokenWalk_isSome σ 0 g (by omega) hne
  obtain ⟨k, hk⟩ := Option.isSome_iff_exists.mp hsome
  simp [getNextToken, hk]

/-- C1: `GetNextToken` draws a goal uniformly in `[0, total)` and walks the
occurrence entries accumulating a running sum; counted over all iteration
orders of the occurrence map and all goal values, each next-token `x` is
returned in the fraction `occurrences[x] / total` of (order, goal) pairs;
on the Link `{x:1, y:3}` (total 4, 2 orders, 8 pairs) `x` is returned in
2/8 = 25% and `y` in 6/8 = 75% of draws. -/
theorem claim_C1_distribution :
    (∀ (l : SingleTokenLink) (x : String) (c : Nat),
      (l.nextTokenOccurrences.map Prod.fst).Nodup →
      (∀ p ∈ l.nextTokenOccurrences, 0 < p.2) →
      l.total = sumCounts l.nextTokenOccurrences →
      (x, c) ∈ l.nextTokenOccurrences →
      drawCount l x = c * l.nextTokenOccurrences.permutations'.length) ∧
    (drawCount
        { token := "t", nextTokenOccurrences := [("x", 1), ("y", 3)],
          total := 4 } "x" = 2 ∧
     drawCount
        { token := "t", nextTokenOccurrences := [("x", 1), ("y", 3)],
          total := 4 } "y" = 6 ∧
     ({ token := "t", nextTokenOccurrences := [("x", 1), ("y", 3)],
         total := 4 } : SingleTokenLink).total *
       [("x", 1), ("y", 3)].permutations'.length = 8) := by
  constructor
  · intro l x c hnd hpos hsum hmem
    rw [drawCount_eq_sum l x hsum]
    exact sum_countGoals_perms l.nextTokenOccurrences x c hnd hpos hmem
  · exact ⟨by decide, by decide, by decide⟩

/-- Witness for C1 on the Link `{x:1, y:3}` at `y`. -/
theorem claim_C1_distribution_witness :
    drawCount
        { token := "t", nextTokenOccurrences := [("x", 1), ("y", 3)],
          total := 4 } "y" =
      3 * [("x", 1), ("y", 3)].permutations'.length :=
  claim_C1_distribution.1
    { token := "t", nextTokenOccurrences := [("x", 1), ("y", 3)], total := 4 }
    "y" 3 (by decide) (by decide) (by decide) (by decide)

end Markov
